import Mathlib

/-!
# Verification of the rulinalg decomposition/comparison core

A shallow embedding of the Cholesky decomposition engine, the triangular
solve routines, the elementwise matrix comparison framework and the
permutation-matrix wrapper, with scalars modelled as exact rationals
(machine epsilon of `f64` is `2^-52`).  The `Matrix::cholesky` convenience
method, whose control flow depends on floating-point finiteness, is
modelled over `Option ℚ` where `none` stands for a non-finite value.
-/

namespace Rulinalg

/-- Machine epsilon for the `f64` scalar type (`f64::EPSILON = 2^-52`). -/
def eps : ℚ := 1 / 2 ^ 52

/-- Floor integer square root (linear scan, so that it evaluates inside
the kernel). -/
def sqrtNat (n : Nat) : Nat :=
  (List.range (n + 1)).foldl (fun acc k => if k * k ≤ n then k else acc) 0

/-- Exact rational square root: componentwise integer square root of the
reduced numerator and denominator.  On perfect rational squares this is the
exact square root; elsewhere it is a floor-style approximation (the claims
only ever rely on exactness, stated as an explicit hypothesis). -/
def sqrtQ (q : ℚ) : ℚ := (sqrtNat q.num.toNat : ℚ) / (sqrtNat q.den : ℚ)

/-- The error kinds used by the decomposition core (`ErrorKind` in
rulinalg's error module; only the two variants the core produces). -/
inductive ErrorKind where
  | DecompFailure
  | DivByZero
deriving DecidableEq, Repr

/-- A structured error: a kind together with a human-readable message. -/
structure Error where
  kind : ErrorKind
  msg : String
deriving DecidableEq, Repr

/-- A dense matrix with explicit dimensions; `data` is a total function
(out-of-range cells are don't-care values, never inspected by theorems). -/
@[ext]
structure Mat (α : Type) where
  rows : Nat
  cols : Nat
  data : Nat → Nat → α

/-- Write the single cell `(i, j)` (models `a[[i, j]] = v`). -/
def Mat.set {α : Type} (m : Mat α) (i j : Nat) (v : α) : Mat α :=
  ⟨m.rows, m.cols, fun r c => if r = i ∧ c = j then v else m.data r c⟩

/-- Build a matrix from row-major data, like rulinalg's
`Matrix { rows, cols, data }`. -/
def Mat.ofList {α : Type} (rows cols : Nat) (d : List α) (dflt : α) : Mat α :=
  ⟨rows, cols, fun i j => d.getD (i * cols + j) dflt⟩

/-- `utils::dot` applied to the length-`len` prefixes of rows `k` and `j`
(`dot(&k_row[0 .. len], &j_row[0 .. len])`). -/
def dotPrefix (m : Mat ℚ) (k j len : Nat) : ℚ :=
  ∑ i ∈ Finset.range len, m.data k i * m.data j i

/-- The column update of `Cholesky::decompose` at column `j`:
`for k in j .. n { a[[k, j]] = a[[k, j]] - dot(k_row[0..j], j_row[0..j]) }`. -/
def updateColumn (a : Mat ℚ) (j n : Nat) : Mat ℚ :=
  (List.range' j (n - j)).foldl
    (fun m k => m.set k j (m.data k j - dotPrefix m k j j)) a

/-- The column scaling of `Cholesky::decompose` at column `j`:
`for k in j .. n { a[[k, j]] = a[[k, j]] / divisor }`. -/
def divideColumn (a : Mat ℚ) (j n : Nat) (divisor : ℚ) : Mat ℚ :=
  (List.range' j (n - j)).foldl
    (fun m k => m.set k j (m.data k j / divisor)) a

/-- The column sweep of `Cholesky::decompose`: processes columns
`j, j+1, ...` while `steps` iterations remain (`steps = n - j` at entry). -/
def decomposeAux (n : Nat) : Nat → Nat → Mat ℚ → Except Error (Mat ℚ)
  | 0, _, a => .ok a
  | steps + 1, j, a =>
    let a1 := if 0 < j then updateColumn a j n else a
    let diagonal := a1.data j j
    if |diagonal| < eps then
      .error ⟨.DecompFailure, "Matrix is singular to working precision."⟩
    else if diagonal < 0 then
      .error ⟨.DecompFailure, "Diagonal entries of matrix are not all positive."⟩
    else
      decomposeAux n steps (j + 1) (divideColumn a1 j n (sqrtQ diagonal))

/-- The Cholesky decomposition value: owns the raw lower-triangular factor
(upper triangle not yet zeroed). -/
structure Cholesky where
  l : Mat ℚ

/-- `Cholesky::decompose`: the gaxpy-rich column sweep over the consumed
input matrix (the source asserts squareness; theorems carry it as a
hypothesis and the embedding runs over `matrix.rows()` columns). -/
def Cholesky.decompose (A : Mat ℚ) : Except Error Cholesky :=
  (decomposeAux A.rows A.rows 0 A).map (fun l => ⟨l⟩)

/-- `internal_utils::nullify_upper_triangular_part`.
Modelled from the spec: `unpack` destructively zeroes every entry strictly
above the diagonal (the helper lives outside the sampled sources). -/
def nullifyUpperTriangularPart (m : Mat ℚ) : Mat ℚ :=
  ⟨m.rows, m.cols, fun i j => if i < j then 0 else m.data i j⟩

/-- `Cholesky::unpack` (the `Decomposition` impl): zero the strictly upper
triangle of the stored factor and return it. -/
def Cholesky.unpack (c : Cholesky) : Mat ℚ :=
  nullifyUpperTriangularPart c.l

/-- The descending loop of `transpose_back_substitution`: fuel `i + 1`
processes index `i` (`for i in (0 .. n).rev()`). -/
def tbsLoop (l : Mat ℚ) (n : Nat) : Nat → List ℚ → Except Error (List ℚ)
  | 0, x => .ok x
  | i + 1, x =>
    let inner := ∑ j ∈ Finset.Ico (i + 1) n, l.data j i * x.getD j 0
    let diagonal := l.data i i
    if |diagonal| < eps then
      .error ⟨.DivByZero, "Matrix L is singular to working precision."⟩
    else
      tbsLoop l n i (x.set i ((x.getD i 0 - inner) / diagonal))

/-- `transpose_back_substitution`: solves `Lᵗ x = b` for lower-triangular
`L` by substitution from the last index down (the source asserts `L`
square and `dim(L) = len(b)`; theorems carry those as hypotheses). -/
def transposeBackSubstitution (l : Mat ℚ) (b : List ℚ) : Except Error (List ℚ) :=
  tbsLoop l l.rows l.rows b

/-- The ascending loop of forward substitution: processes index `i` while
`steps` iterations remain. -/
def fsLoop (l : Mat ℚ) (n : Nat) : Nat → Nat → List ℚ → Except Error (List ℚ)
  | 0, _, x => .ok x
  | steps + 1, i, x =>
    let inner := ∑ j ∈ Finset.range i, l.data i j * x.getD j 0
    let diagonal := l.data i i
    if |diagonal| < eps then
      .error ⟨.DivByZero, "Matrix L is singular to working precision."⟩
    else
      fsLoop l n steps (i + 1) (x.set i ((x.getD i 0 - inner) / diagonal))

/-- `forward_substitution`.
Modelled from the spec: the external forward-substitution stage of
`solve`, solving `L y = b` top-down, with the same
singular-to-working-precision diagonal check as the in-core transpose
back-substitution routine (the routine lives outside the sampled sources). -/
def forwardSubstitution (l : Mat ℚ) (b : List ℚ) : Except Error (List ℚ) :=
  fsLoop l l.rows l.rows 0 b

/-- `Cholesky::solve`: asserts the RHS length matches, forward-substitutes
`L y = b`, then transpose-back-substitutes `Lᵗ x = y`.  A fatal outcome
(the dimension assert or an `.expect` on an internal substitution error)
is modelled as `none`. -/
def Cholesky.solve (c : Cholesky) (b : List ℚ) : Option (List ℚ) :=
  if c.l.rows = b.length then
    match forwardSubstitution c.l b with
    | .ok y =>
      match transposeBackSubstitution c.l y with
      | .ok x => some x
      | .error _ => none
    | .error _ => none
  else none

/-- The pivot trace of `Cholesky::decompose`: the successive updated
diagonal entries inspected by the sweep, ending early at the first bad
pivot (derived from the same loop as `decomposeAux`). -/
def cholPivotsAux (n : Nat) : Nat → Nat → Mat ℚ → List ℚ
  | 0, _, _ => []
  | steps + 1, j, a =>
    let a1 := if 0 < j then updateColumn a j n else a
    let diagonal := a1.data j j
    if |diagonal| < eps then [diagonal]
    else if diagonal < 0 then [diagonal]
    else diagonal :: cholPivotsAux n steps (j + 1) (divideColumn a1 j n (sqrtQ diagonal))

/-- The pivot trace of a full decomposition run. -/
def cholPivots (A : Mat ℚ) : List ℚ :=
  cholPivotsAux A.rows A.rows 0 A

/-! ## External matrix/vector capabilities used by the claims

Modelled from the spec: the generic dense-matrix container (transpose,
multiplication, identity) is an external collaborator with the standard
meaning; the claims use it to state the reconstruction law. -/

/-- Matrix transpose (external container capability). -/
def Mat.transpose {α : Type} (m : Mat α) : Mat α :=
  ⟨m.cols, m.rows, fun i j => m.data j i⟩

/-- Matrix multiplication (external container capability). -/
def Mat.mul (x y : Mat ℚ) : Mat ℚ :=
  ⟨x.rows, y.cols, fun i j => ∑ k ∈ Finset.range x.cols, x.data i k * y.data k j⟩

/-- The `n × n` identity matrix (external container capability). -/
def idMat (n : Nat) : Mat ℚ :=
  ⟨n, n, fun i j => if i = j then 1 else 0⟩

/-- Equality of two matrices as matrices: equal dimensions and equal
entries on every in-range cell. -/
def Mat.eqOn (x y : Mat ℚ) : Prop :=
  x.rows = y.rows ∧ x.cols = y.cols ∧
    ∀ i, i < x.rows → ∀ j, j < x.cols → x.data i j = y.data i j

instance : DecidablePred fun p : Mat ℚ × Mat ℚ => Mat.eqOn p.1 p.2 := by
  intro p
  unfold Mat.eqOn
  exact instDecidableAnd

/-- Symmetry of a square matrix on its in-range cells. -/
def Mat.IsSymmetric (m : Mat ℚ) : Prop :=
  ∀ i, i < m.rows → ∀ j, j < m.cols → m.data i j = m.data j i

instance (m : Mat ℚ) : Decidable m.IsSymmetric := by
  unfold Mat.IsSymmetric
  infer_instance

/-- Lower-triangularity: every in-range entry strictly above the diagonal
is zero. -/
def Mat.IsLowerTriangular (m : Mat ℚ) : Prop :=
  ∀ j, j < m.cols → ∀ i, i < j → m.data i j = 0

instance (m : Mat ℚ) : Decidable m.IsLowerTriangular := by
  unfold Mat.IsLowerTriangular
  infer_instance

/-! ## The `Matrix::cholesky` convenience method

Its failure detection inspects floating-point finiteness, so its scalars
are modelled as `Option ℚ` (`none` = non-finite, i.e. `NaN`/`±∞`). -/

/-- A possibly non-finite scalar. -/
abbrev OQ := Option ℚ

/-- Addition with non-finite absorption. -/
def oadd : OQ → OQ → OQ
  | some a, some b => some (a + b)
  | _, _ => none

/-- Subtraction with non-finite absorption. -/
def osub : OQ → OQ → OQ
  | some a, some b => some (a - b)
  | _, _ => none

/-- Multiplication with non-finite absorption. -/
def omul : OQ → OQ → OQ
  | some a, some b => some (a * b)
  | _, _ => none

/-- Division: division by zero or by/of a non-finite value is non-finite. -/
def odiv : OQ → OQ → OQ
  | some a, some b => if b = 0 then none else some (a / b)
  | _, _ => none

/-- Square root: `NaN` on negative or non-finite input, exact rational
square root (`sqrtQ`) otherwise. -/
def osqrt : OQ → OQ
  | some a => if a < 0 then none else some (sqrtQ a)
  | none => none

/-- `is_finite` on a possibly non-finite scalar. -/
def ofinite : OQ → Bool := Option.isSome

/-- The running sum of `Matrix::cholesky`:
`for k in 0..j { sum = sum + new_data[i*n+k] * new_data[j*n+k] }`. -/
def cholSum (nd : List OQ) (n i j : Nat) : OQ :=
  (List.range j).foldl
    (fun s k => oadd s (omul (nd.getD (i * n + k) none) (nd.getD (j * n + k) none)))
    (some 0)

/-- The inner (column) loop of `Matrix::cholesky` at row `i`: pushes the
entries of row `i` onto `nd` while `steps` columns remain. -/
def cholCol (A : Mat OQ) (n i : Nat) : Nat → Nat → List OQ → Except Error (List OQ)
  | 0, _, nd => .ok nd
  | steps + 1, j, nd =>
    if j > i then cholCol A n i steps (j + 1) (nd ++ [some 0])
    else
      let sum := cholSum nd n i j
      if j = i then cholCol A n i steps (j + 1) (nd ++ [osqrt (osub (A.data i i) sum)])
      else
        let p := odiv (osub (A.data i j) sum) (nd.getD (j * n + j) (some 0))
        if ofinite p then cholCol A n i steps (j + 1) (nd ++ [p])
        else .error ⟨.DecompFailure, "Matrix is not positive definite."⟩

/-- The outer (row) loop of `Matrix::cholesky`. -/
def cholRow (A : Mat OQ) (n : Nat) : Nat → Nat → List OQ → Except Error (List OQ)
  | 0, _, nd => .ok nd
  | steps + 1, i, nd =>
    match cholCol A n i n 0 nd with
    | .ok nd' => cholRow A n steps (i + 1) nd'
    | .error e => .error e

/-- `Matrix::cholesky`: the right-looking, dot-product-per-cell
formulation, building the factor's row-major data vector and failing only
when an off-diagonal quotient is non-finite. -/
def Mat.cholesky (A : Mat OQ) : Except Error (Mat OQ) :=
  (cholRow A A.cols A.rows 0 []).map
    (fun nd => ⟨A.rows, A.cols, fun i j => nd.getD (i * A.cols + j) none⟩)

/-- Lift an exact rational matrix to the possibly-non-finite scalar type. -/
def Mat.lift (m : Mat ℚ) : Mat OQ :=
  ⟨m.rows, m.cols, fun i j => some (m.data i j)⟩

/-! ## The elementwise matrix comparison framework -/

/-- One mismatching cell: both values, the comparator's error payload and
the location. -/
structure ElementComparisonFailure (α E : Type) where
  x : α
  y : α
  error : E
  row : Nat
  col : Nat
deriving DecidableEq, Repr

/-- The tagged outcome of a comparison pass. -/
inductive MatrixComparisonResult (α C E : Type) where
  | Match
  | MismatchedDimensions (dim_x dim_y : Nat × Nat)
  | MismatchedElements (comparator : C) (mismatches : List (ElementComparisonFailure α E))
deriving DecidableEq, Repr

/-- `elementwise_matrix_comparison`: dimension check first, otherwise a
row-major scan pushing every mismatch; `compare` is the comparator
family's `compare` method. -/
def elementwiseMatrixComparison {α C E : Type}
    (compare : C → α → α → Option E) (x y : Mat α) (comparator : C) :
    MatrixComparisonResult α C E :=
  if x.rows = y.rows ∧ x.cols = y.cols then
    let mismatches :=
      (List.range x.rows).foldl
        (fun acc i =>
          (List.range x.cols).foldl
            (fun acc j =>
              match compare comparator (x.data i j) (y.data i j) with
              | some error => acc ++ [⟨x.data i j, y.data i j, error, i, j⟩]
              | none => acc)
            acc)
        []
    if mismatches.isEmpty then .Match
    else .MismatchedElements comparator mismatches
  else .MismatchedDimensions (x.rows, x.cols) (y.rows, y.cols)

/-- The mismatch list in row-major order, described directly (spec side of
the comparison-engine claims). -/
def rowMajorMismatches {α C E : Type}
    (compare : C → α → α → Option E) (x y : Mat α) (comparator : C) :
    List (ElementComparisonFailure α E) :=
  (List.range x.rows).flatMap fun i =>
    (List.range x.cols).filterMap fun j =>
      (compare comparator (x.data i j) (y.data i j)).map
        fun error => ⟨x.data i j, y.data i j, error, i, j⟩

/-- The absolute-difference error payload (`AbsoluteError<T>`). -/
structure AbsoluteError (α : Type) where
  error : α
deriving DecidableEq, Repr

/-- The absolute-tolerance comparator (`AbsoluteElementwiseComparator`). -/
structure AbsoluteElementwiseComparator (α : Type) where
  tol : α
deriving DecidableEq, Repr

/-- `AbsoluteElementwiseComparator::compare`: equal values match, else
the distance `max - min` is compared against the tolerance. -/
def absCompare (c : AbsoluteElementwiseComparator ℚ) (a b : ℚ) :
    Option (AbsoluteError ℚ) :=
  if a = b then none
  else
    let distance := if a > b then a - b else b - a
    if distance ≤ c.tol then none else some ⟨distance⟩

/-- The exact-equality error payload (`ExactError`). -/
inductive ExactError where
  | mk
deriving DecidableEq, Repr

/-- The exact-equality comparator (`ExactElementwiseComparator`). -/
inductive ExactElementwiseComparator where
  | mk
deriving DecidableEq, Repr

/-- `ExactElementwiseComparator::compare`: mismatch exactly when the two
values differ. -/
def exactCompare (_ : ExactElementwiseComparator) (a b : ℚ) :
    Option ExactError :=
  if a = b then none else some .mk

/-! ## Permutations and the permutation-matrix wrapper

Modelled from the spec: `utils::Permutation` (a length-`N` sequence of
destination indices with identity/swap/inverse/cardinality) lives outside
the sampled sources, and `PermutationMatrix::as_matrix` is not yet
implemented there; the spec directs: allocate an `N × N` zero matrix and
set `result[[i, perm[i]]] = one` for each `i`. -/

/-- A permutation of `{0 .. n-1}` stored as its destination sequence. -/
structure Permutation where
  perm : List Nat
deriving DecidableEq, Repr

/-- `Permutation::identity`. -/
def Permutation.identity (n : Nat) : Permutation :=
  ⟨List.range n⟩

/-- `Permutation::swap`: exchange the destination values at `i` and `j`. -/
def Permutation.swap (p : Permutation) (i j : Nat) : Permutation :=
  let a := p.perm.getD i 0
  let b := p.perm.getD j 0
  ⟨(p.perm.set i b).set j a⟩

/-- `Permutation::cardinality`. -/
def Permutation.cardinality (p : Permutation) : Nat :=
  p.perm.length

/-- `Permutation::inverse`: the functional inverse of the mapping. -/
def Permutation.inverse (p : Permutation) : Permutation :=
  ⟨(List.range p.perm.length).map fun j => (p.perm.indexOf j)⟩

/-- `PermutationMatrix<T>` (scalar marker dropped; the permutation logic
never uses it). -/
structure PermutationMatrix where
  perm : Permutation
deriving DecidableEq, Repr

/-- `PermutationMatrix::identity`. -/
def PermutationMatrix.identity (n : Nat) : PermutationMatrix :=
  ⟨Permutation.identity n⟩

/-- `PermutationMatrix::swap`. -/
def PermutationMatrix.swap (p : PermutationMatrix) (i j : Nat) : PermutationMatrix :=
  ⟨p.perm.swap i j⟩

/-- `PermutationMatrix::inverse`. -/
def PermutationMatrix.inverse (p : PermutationMatrix) : PermutationMatrix :=
  ⟨p.perm.inverse⟩

/-- `PermutationMatrix::dim`. -/
def PermutationMatrix.dim (p : PermutationMatrix) : Nat :=
  p.perm.cardinality

/-- The destination index of row `i`. -/
def PermutationMatrix.index (p : PermutationMatrix) (i : Nat) : Nat :=
  p.perm.perm.getD i 0

/-- `PermutationMatrix::as_matrix`.
Modelled from the spec: allocate an `N × N` zero matrix and set
`result[[i, perm[i]]] = one` for each `i` (the sampled source body is
`unimplemented!()`). -/
def PermutationMatrix.asMatrix (p : PermutationMatrix) : Mat ℚ :=
  (List.range p.dim).foldl
    (fun m i => m.set i (p.index i) 1)
    ⟨p.dim, p.dim, fun _ _ => 0⟩

/-- Whether a result is the error case (`Result::is_err`). -/
def isErr {ε α : Type} : Except ε α → Bool
  | .error _ => true
  | .ok _ => false

instance {ε α : Type} [DecidableEq ε] [DecidableEq α] : DecidableEq (Except ε α)
  | .ok a, .ok b =>
    if h : a = b then .isTrue (by rw [h]) else .isFalse (by intro hh; cases hh; exact h rfl)
  | .ok _, .error _ => .isFalse (by intro h; cases h)
  | .error _, .ok _ => .isFalse (by intro h; cases h)
  | .error e, .error f =>
    if h : e = f then .isTrue (by rw [h]) else .isFalse (by intro hh; cases hh; exact h rfl)

/-! ## Basic facts about single-cell writes -/

theorem Mat.set_rows {α : Type} (m : Mat α) (i j : Nat) (v : α) :
    (m.set i j v).rows = m.rows := rfl

theorem Mat.set_cols {α : Type} (m : Mat α) (i j : Nat) (v : α) :
    (m.set i j v).cols = m.cols := rfl

theorem Mat.set_data_eq {α : Type} (m : Mat α) (i j : Nat) (v : α) :
    (m.set i j v).data i j = v := by
  simp [Mat.set]

theorem Mat.set_data {α : Type} (m : Mat α) (i j r c : Nat) (v : α) :
    (m.set i j v).data r c = if r = i ∧ c = j then v else m.data r c := rfl

theorem Mat.set_data_ne {α : Type} (m : Mat α) (i j r c : Nat) (v : α)
    (h : ¬(r = i ∧ c = j)) : (m.set i j v).data r c = m.data r c := by
  simp [Mat.set, h]

/-! ## Pointwise characterization of the column operations -/

theorem dotPrefix_set_col (a : Mat ℚ) (k' j : Nat) (v : ℚ) (r s len : Nat)
    (hlen : len ≤ j) : dotPrefix (a.set k' j v) r s len = dotPrefix a r s len := by
  unfold dotPrefix
  refine Finset.sum_congr rfl fun i hi => ?_
  have hij : i ≠ j := by
    have := Finset.mem_range.mp hi
    omega
  rw [Mat.set_data_ne _ _ _ _ _ _ (by tauto), Mat.set_data_ne _ _ _ _ _ _ (by tauto)]

theorem foldl_update_data (j : Nat) (ks : List Nat) (hnd : ks.Nodup)
    (a : Mat ℚ) (r c : Nat) :
    (ks.foldl (fun m k => m.set k j (m.data k j - dotPrefix m k j j)) a).data r c
      = if c = j ∧ r ∈ ks then a.data r j - dotPrefix a r j j else a.data r c := by
  induction ks generalizing a with
  | nil => simp
  | cons k ks ih =>
    have hnd' : ks.Nodup := hnd.of_cons
    have hk : k ∉ ks := (List.nodup_cons.mp hnd).1
    simp only [List.foldl_cons]
    rw [ih hnd']
    rw [dotPrefix_set_col a k j (a.data k j - dotPrefix a k j j) r j j le_rfl]
    by_cases hc : c = j
    · by_cases hr : r ∈ ks
      · have hrk : r ≠ k := fun h => hk (h ▸ hr)
        simp [hc, hr, hrk, Mat.set_data, List.mem_cons]
      · by_cases hrk : r = k
        · subst hrk
          simp [hc, hr, Mat.set_data, List.mem_cons]
        · simp [hc, hr, hrk, Mat.set_data, List.mem_cons]
    · simp [hc, Mat.set_data]

theorem foldl_divide_data (j : Nat) (d : ℚ) (ks : List Nat) (hnd : ks.Nodup)
    (a : Mat ℚ) (r c : Nat) :
    (ks.foldl (fun m k => m.set k j (m.data k j / d)) a).data r c
      = if c = j ∧ r ∈ ks then a.data r j / d else a.data r c := by
  induction ks generalizing a with
  | nil => simp
  | cons k ks ih =>
    have hnd' : ks.Nodup := hnd.of_cons
    have hk : k ∉ ks := (List.nodup_cons.mp hnd).1
    simp only [List.foldl_cons]
    rw [ih hnd']
    by_cases hc : c = j
    · by_cases hr : r ∈ ks
      · have hrk : r ≠ k := fun h => hk (h ▸ hr)
        simp [hc, hr, hrk, Mat.set_data, List.mem_cons]
      · by_cases hrk : r = k
        · subst hrk
          simp [hc, hr, Mat.set_data, List.mem_cons]
        · simp [hc, hr, hrk, Mat.set_data, List.mem_cons]
    · simp [hc, Mat.set_data]

theorem updateColumn_data (a : Mat ℚ) (j n : Nat) (hjn : j ≤ n) (r c : Nat) :
    (updateColumn a j n).data r c
      = if c = j ∧ j ≤ r ∧ r < n then a.data r j - dotPrefix a r j j
        else a.data r c := by
  unfold updateColumn
  rw [foldl_update_data j _ (List.nodup_range' _ _) a r c]
  simp only [List.mem_range'_1, show j + (n - j) = n from by omega]

theorem divideColumn_data (a : Mat ℚ) (j n : Nat) (d : ℚ) (hjn : j ≤ n) (r c : Nat) :
    (divideColumn a j n d).data r c
      = if c = j ∧ j ≤ r ∧ r < n then a.data r j / d else a.data r c := by
  unfold divideColumn
  rw [foldl_divide_data j d _ (List.nodup_range' _ _) a r c]
  simp only [List.mem_range'_1, show j + (n - j) = n from by omega]

theorem foldl_set_rows {α : Type} (f : Mat α → Nat → Nat × Nat × α)
    (ks : List Nat) (a : Mat α) :
    (ks.foldl (fun m k => m.set (f m k).1 (f m k).2.1 (f m k).2.2) a).rows = a.rows := by
  induction ks generalizing a with
  | nil => rfl
  | cons k ks ih => simpa using ih _

theorem updateColumn_rows (a : Mat ℚ) (j n : Nat) : (updateColumn a j n).rows = a.rows := by
  unfold updateColumn
  induction (List.range' j (n - j)) generalizing a with
  | nil => rfl
  | cons k ks ih => simpa using ih _

theorem updateColumn_cols (a : Mat ℚ) (j n : Nat) : (updateColumn a j n).cols = a.cols := by
  unfold updateColumn
  induction (List.range' j (n - j)) generalizing a with
  | nil => rfl
  | cons k ks ih => simpa using ih _

theorem divideColumn_rows (a : Mat ℚ) (j n : Nat) (d : ℚ) :
    (divideColumn a j n d).rows = a.rows := by
  unfold divideColumn
  induction (List.range' j (n - j)) generalizing a with
  | nil => rfl
  | cons k ks ih => simpa using ih _

theorem divideColumn_cols (a : Mat ℚ) (j n : Nat) (d : ℚ) :
    (divideColumn a j n d).cols = a.cols := by
  unfold divideColumn
  induction (List.range' j (n - j)) generalizing a with
  | nil => rfl
  | cons k ks ih => simpa using ih _

/-! ## List access helpers -/

theorem getD_set_ne (l : List ℚ) (i k : Nat) (v : ℚ) (h : k ≠ i) :
    (l.set i v).getD k 0 = l.getD k 0 := by
  simp [List.getD_eq_getElem?_getD, List.getElem?_set, Ne.symm h]

theorem getD_set_self (l : List ℚ) (i : Nat) (v : ℚ) (h : i < l.length) :
    (l.set i v).getD i 0 = v := by
  simp [List.getD_eq_getElem?_getD, List.getElem?_set, h]

theorem exists_ok_of_not_isErr {ε α : Type} {r : Except ε α}
    (h : isErr r = false) : ∃ a, r = .ok a := by
  cases r with
  | ok a => exact ⟨a, rfl⟩
  | error e => simp [isErr] at h

/-! ## Behaviour of the transpose back-substitution loop -/

theorem tbsLoop_isErr (l : Mat ℚ) (n : Nat) :
    ∀ (i : Nat) (x : List ℚ),
      (isErr (tbsLoop l n i x) = true ↔ ∃ k, k < i ∧ |l.data k k| < eps) := by
  intro i
  induction i with
  | zero => intro x; simp [tbsLoop, isErr]
  | succ i ih =>
    intro x
    by_cases hbad : |l.data i i| < eps
    · simp only [tbsLoop, hbad, if_true, isErr, true_iff]
      exact ⟨i, Nat.lt_succ_self i, hbad⟩
    · simp only [tbsLoop, hbad, if_false]
      rw [ih]
      constructor
      · rintro ⟨k, hk, hb⟩; exact ⟨k, Nat.lt_succ_of_lt hk, hb⟩
      · rintro ⟨k, hk, hb⟩
        refine ⟨k, ?_, hb⟩
        rcases Nat.lt_succ_iff_lt_or_eq.mp hk with h | h
        · exact h
        · exact absurd (h ▸ hb) hbad

theorem tbsLoop_error (l : Mat ℚ) (n : Nat) :
    ∀ (i : Nat) (x : List ℚ) (e : Error), tbsLoop l n i x = .error e →
      e = ⟨.DivByZero, "Matrix L is singular to working precision."⟩ := by
  intro i
  induction i with
  | zero => intro x e h; simp [tbsLoop] at h
  | succ i ih =>
    intro x e h
    by_cases hbad : |l.data i i| < eps
    · simp only [tbsLoop, hbad, if_true] at h
      cases h
      rfl
    · simp only [tbsLoop, hbad, if_false] at h
      exact ih _ _ h

theorem tbsLoop_ok (l : Mat ℚ) (n : Nat) :
    ∀ (i : Nat) (x x' : List ℚ), i ≤ x.length → tbsLoop l n i x = .ok x' →
      x'.length = x.length ∧
      (∀ k, i ≤ k → x'.getD k 0 = x.getD k 0) ∧
      (∀ k, k < i →
        x'.getD k 0 =
          (x.getD k 0 - ∑ j ∈ Finset.Ico (k + 1) n, l.data j k * x'.getD j 0)
            / l.data k k) := by
  intro i
  induction i with
  | zero =>
    intro x x' _ h
    simp only [tbsLoop] at h
    cases h
    exact ⟨rfl, fun k _ => rfl, fun k hk => absurd hk (Nat.not_lt_zero k)⟩
  | succ i ih =>
    intro x x' hlen h
    by_cases hbad : |l.data i i| < eps
    · simp only [tbsLoop, hbad, if_true] at h
      cases h
    · simp only [tbsLoop, hbad, if_false] at h
      have hlen' : i ≤ (x.set i ((x.getD i 0 -
          ∑ j ∈ Finset.Ico (i + 1) n, l.data j i * x.getD j 0) / l.data i i)).length := by
        simp; omega
      obtain ⟨h1, h2, h3⟩ := ih _ x' hlen' h
      have hxlen : i < x.length := by omega
      have hkeep : ∀ k, i + 1 ≤ k → x'.getD k 0 = x.getD k 0 := by
        intro k hk
        rw [h2 k (by omega), getD_set_ne _ _ _ _ (by omega)]
      refine ⟨by simpa using h1, hkeep, ?_⟩
      intro k hk
      rcases Nat.lt_succ_iff_lt_or_eq.mp hk with hki | hki
      · rw [h3 k hki, getD_set_ne _ _ _ _ (by omega)]
      · subst hki
        rw [h2 k le_rfl, getD_set_self _ _ _ hxlen]
        congr 2
        refine Finset.sum_congr rfl fun j hj => ?_
        have hji : k + 1 ≤ j := (Finset.mem_Ico.mp hj).1
        rw [hkeep j hji]

/-- The result value of `transpose_back_substitution` on success: the
backward recurrence of the spec, stated on the final vector. -/
theorem transposeBackSubstitution_ok (l : Mat ℚ) (b x : List ℚ)
    (hlen : l.rows = b.length)
    (h : transposeBackSubstitution l b = .ok x) :
    x.length = b.length ∧
    (∀ k, k < l.rows →
      x.getD k 0 =
        (b.getD k 0 - ∑ j ∈ Finset.Ico (k + 1) l.rows, l.data j k * x.getD j 0)
          / l.data k k) := by
  obtain ⟨h1, _, h3⟩ := tbsLoop_ok l l.rows l.rows b x (le_of_eq hlen) h
  exact ⟨h1, h3⟩

/-! ## Behaviour of the forward-substitution loop -/

theorem fsLoop_ok_of_good (l : Mat ℚ) (n : Nat)
    (hgood : ∀ k, k < n → ¬(|l.data k k| < eps)) :
    ∀ (steps i : Nat) (x : List ℚ), i + steps = n →
      ∃ y, fsLoop l n steps i x = .ok y := by
  intro steps
  induction steps with
  | zero => intro i x _; exact ⟨x, rfl⟩
  | succ steps ih =>
    intro i x hin
    have hi : i < n := by omega
    have := hgood i hi
    simp only [fsLoop, this, if_false]
    exact ih (i + 1) _ (by omega)

/-! ## Small arithmetic facts about the epsilon threshold and `sqrtQ` -/

theorem eps_pos : 0 < eps := by norm_num [eps]

theorem eps_sq_lt : eps * eps < eps := by norm_num [eps]

theorem sqrtQ_nonneg (q : ℚ) : 0 ≤ sqrtQ q := by
  unfold sqrtQ
  apply div_nonneg
  · positivity
  · positivity

/-- The pivot-inspection branch of `decomposeAux` (source lines 56–63) with
the `j > 0` guard folded in: the updated entry at `(r, c)`. -/
theorem updateStep_data (a : Mat ℚ) (j n : Nat) (hjn : j ≤ n) (r c : Nat) :
    (if 0 < j then updateColumn a j n else a).data r c
      = if c = j ∧ j ≤ r ∧ r < n then a.data r j - dotPrefix a r j j
        else a.data r c := by
  by_cases hj : 0 < j
  · simp only [hj, if_true]
    exact updateColumn_data a j n hjn r c
  · have hj0 : j = 0 := by omega
    subst hj0
    simp only [hj, if_false, dotPrefix, Finset.range_zero, Finset.sum_empty, sub_zero]
    by_cases h : c = 0 ∧ 0 ≤ r ∧ r < n
    · obtain ⟨h1, h2⟩ := h
      subst h1
      rw [if_pos ⟨rfl, h2⟩]
    · rw [if_neg h]

theorem updateStep_rows (a : Mat ℚ) (j n : Nat) :
    (if 0 < j then updateColumn a j n else a).rows = a.rows := by
  by_cases hj : 0 < j <;> simp [hj, updateColumn_rows]

theorem updateStep_cols (a : Mat ℚ) (j n : Nat) :
    (if 0 < j then updateColumn a j n else a).cols = a.cols := by
  by_cases hj : 0 < j <;> simp [hj, updateColumn_cols]

/-! ## The decomposition sweep versus its pivot trace -/

theorem decomposeAux_isErr (n : Nat) :
    ∀ (steps j : Nat) (a : Mat ℚ),
      (isErr (decomposeAux n steps j a) = true ↔
        ∃ d ∈ cholPivotsAux n steps j a, |d| < eps ∨ d < 0) := by
  intro steps
  induction steps with
  | zero => intro j a; simp [decomposeAux, cholPivotsAux, isErr]
  | succ steps ih =>
    intro j a
    by_cases h1 : |(if 0 < j then updateColumn a j n else a).data j j| < eps
    · simp [decomposeAux, cholPivotsAux, h1, isErr]
    · by_cases h2 : (if 0 < j then updateColumn a j n else a).data j j < 0
      · simp [decomposeAux, cholPivotsAux, h1, h2, isErr]
      · simp only [decomposeAux, cholPivotsAux, h1, h2, if_false]
        rw [ih]
        simp only [List.mem_cons]
        constructor
        · rintro ⟨d, hd, hbad⟩; exact ⟨d, Or.inr hd, hbad⟩
        · rintro ⟨d, hd | hd, hbad⟩
          · subst hd
            rcases hbad with hb | hb
            · exact absurd hb h1
            · exact absurd hb h2
          · exact ⟨d, hd, hbad⟩

theorem decomposeAux_error (n : Nat) :
    ∀ (steps j : Nat) (a : Mat ℚ) (e : Error),
      decomposeAux n steps j a = .error e →
      ∃ d, (cholPivotsAux n steps j a).getLast? = some d ∧
        e.kind = .DecompFailure ∧
        ((|d| < eps ∧ e.msg = "Matrix is singular to working precision.") ∨
         (¬(|d| < eps) ∧ d < 0 ∧
           e.msg = "Diagonal entries of matrix are not all positive.")) := by
  intro steps
  induction steps with
  | zero => intro j a e h; simp [decomposeAux] at h
  | succ steps ih =>
    intro j a e h
    by_cases h1 : |(if 0 < j then updateColumn a j n else a).data j j| < eps
    · simp only [decomposeAux, h1, if_true] at h
      cases h
      exact ⟨_, by simp [cholPivotsAux, h1], rfl, Or.inl ⟨h1, rfl⟩⟩
    · by_cases h2 : (if 0 < j then updateColumn a j n else a).data j j < 0
      · simp only [decomposeAux, h1, h2, if_false, if_true] at h
        cases h
        exact ⟨_, by simp [cholPivotsAux, h1, h2], rfl, Or.inr ⟨h1, h2, rfl⟩⟩
      · simp only [decomposeAux, h1, h2, if_false] at h
        obtain ⟨d, hd, hk, hm⟩ := ih _ _ e h
        refine ⟨d, ?_, hk, hm⟩
        simp only [cholPivotsAux, h1, h2, if_false]
        rcases hrest : cholPivotsAux n steps (j + 1)
            (divideColumn (if 0 < j then updateColumn a j n else a) j n
              (sqrtQ ((if 0 < j then updateColumn a j n else a).data j j))) with - | ⟨c, t⟩
        · rw [hrest] at hd; simp at hd
        · rw [hrest] at hd
          rw [List.getLast?_cons_cons]
          exact hd

/-! ## The decomposition invariant

On success the sweep leaves the strictly upper triangle untouched, puts
every diagonal entry strictly above epsilon (given that the accepted
pivots have exact square roots), and satisfies the partial reconstruction
identity `∑_{m ≤ c} L[r,m]·L[c,m] = A[r,c]` on the lower triangle. -/

theorem decomposeAux_invariant (A : Mat ℚ) (n : Nat) :
    ∀ (steps j : Nat) (a L : Mat ℚ), j + steps = n →
      (∀ r c, c < j → r < c → a.data r c = A.data r c) →
      (∀ r c, j ≤ c → a.data r c = A.data r c) →
      (∀ c, c < j → eps < a.data c c) →
      (∀ r c, c < j → c ≤ r → r < n →
        (∑ m ∈ Finset.range (c + 1), a.data r m * a.data c m) = A.data r c) →
      (∀ d ∈ cholPivotsAux n steps j a, sqrtQ d * sqrtQ d = d) →
      decomposeAux n steps j a = .ok L →
      L.rows = a.rows ∧ L.cols = a.cols ∧
      (∀ r c, r < c → L.data r c = A.data r c) ∧
      (∀ c, c < n → eps < L.data c c) ∧
      (∀ r c, c < n → c ≤ r → r < n →
        (∑ m ∈ Finset.range (c + 1), L.data r m * L.data c m) = A.data r c) := by
  intro steps
  induction steps with
  | zero =>
    intro j a L hjn hup hun hdg hrec _ h
    have hL : a = L := by simpa [decomposeAux] using h
    subst hL
    have hjn' : j = n := by omega
    refine ⟨rfl, rfl, ?_, ?_, ?_⟩
    · intro r c hrc
      by_cases hc : c < n
      · exact hup r c (by omega) hrc
      · exact hun r c (by omega)
    · intro c hc
      exact hdg c (by omega)
    · intro r c hc hcr hrn
      exact hrec r c (by omega) hcr hrn
  | succ steps ih =>
    intro j a L hjn hup hun hdg hrec hsq h
    have hjlt : j < n := by omega
    have hjle : j ≤ n := by omega
    simp only [decomposeAux] at h
    set d := (if 0 < j then updateColumn a j n else a).data j j with hd
    by_cases h1 : |d| < eps
    · rw [if_pos h1] at h
      cases h
    rw [if_neg h1] at h
    by_cases h2 : d < 0
    · rw [if_pos h2] at h
      cases h
    rw [if_neg h2] at h
    set a2 := divideColumn (if 0 < j then updateColumn a j n else a) j n (sqrtQ d) with ha2
    push_neg at h1 h2
    have hgood : eps ≤ d := by rwa [abs_of_nonneg h2] at h1
    have hdpos : 0 < d := lt_of_lt_of_le eps_pos hgood
    have hdval : d = a.data j j - dotPrefix a j j j := by
      rw [hd, updateStep_data a j n hjle j j, if_pos ⟨rfl, le_rfl, hjlt⟩]
    have ha2data : ∀ r c, a2.data r c =
        if c = j ∧ j ≤ r ∧ r < n
        then (if 0 < j then updateColumn a j n else a).data r j / sqrtQ d
        else (if 0 < j then updateColumn a j n else a).data r c := by
      intro r c
      rw [ha2]
      exact divideColumn_data _ j n _ hjle r c
    have ha1data := updateStep_data a j n hjle
    have hoff : ∀ r c, c ≠ j → a2.data r c = a.data r c := by
      intro r c hc
      rw [ha2data, if_neg (by tauto), ha1data, if_neg (by tauto)]
    have hcol : ∀ r, j ≤ r → r < n →
        a2.data r j = (a.data r j - dotPrefix a r j j) / sqrtQ d := by
      intro r h1r h2r
      rw [ha2data, if_pos ⟨rfl, h1r, h2r⟩, ha1data, if_pos ⟨rfl, h1r, h2r⟩]
    have hcolup : ∀ r, r < j → a2.data r j = a.data r j := by
      intro r hr
      rw [ha2data, if_neg (by omega), ha1data, if_neg (by omega)]
    have hpiv : cholPivotsAux n (steps + 1) j a =
        d :: cholPivotsAux n steps (j + 1) a2 := by
      simp only [cholPivotsAux]
      rw [← hd, ← ha2]
      simp [not_lt.mpr h1, not_lt.mpr h2]
    have hs : sqrtQ d * sqrtQ d = d := hsq d (by rw [hpiv]; exact List.mem_cons_self _ _)
    have hsnz : sqrtQ d ≠ 0 := by
      intro h0
      rw [h0, mul_zero] at hs
      exact hdpos.ne' hs.symm
    have hdiv : d / sqrtQ d = sqrtQ d := (div_eq_iff hsnz).mpr hs.symm
    have hjj : a2.data j j = sqrtQ d := by
      rw [hcol j le_rfl hjlt, ← hdval, hdiv]
    have hepslt : eps < sqrtQ d := by
      by_contra hle
      push_neg at hle
      have h4 : d ≤ eps * eps := by
        rw [← hs]
        exact mul_le_mul hle hle (sqrtQ_nonneg d) eps_pos.le
      exact absurd (lt_of_le_of_lt h4 eps_sq_lt) (not_lt.mpr hgood)
    have hup' : ∀ r c, c < j + 1 → r < c → a2.data r c = A.data r c := by
      intro r c hc hrc
      rcases Nat.lt_succ_iff_lt_or_eq.mp hc with hcj | hcj
      · rw [hoff r c (by omega)]
        exact hup r c hcj hrc
      · subst hcj
        rw [hcolup r hrc]
        exact hun r c le_rfl
    have hun' : ∀ r c, j + 1 ≤ c → a2.data r c = A.data r c := by
      intro r c hc
      rw [hoff r c (by omega)]
      exact hun r c (by omega)
    have hdg' : ∀ c, c < j + 1 → eps < a2.data c c := by
      intro c hc
      rcases Nat.lt_succ_iff_lt_or_eq.mp hc with hcj | hcj
      · rw [hoff c c (by omega)]
        exact hdg c hcj
      · subst hcj
        rw [hjj]
        exact hepslt
    have hrec' : ∀ r c, c < j + 1 → c ≤ r → r < n →
        (∑ m ∈ Finset.range (c + 1), a2.data r m * a2.data c m) = A.data r c := by
      intro r c hc hcr hrn
      rcases Nat.lt_succ_iff_lt_or_eq.mp hc with hcj | hcj
      · have hterms : ∀ m ∈ Finset.range (c + 1),
            a2.data r m * a2.data c m = a.data r m * a.data c m := by
          intro m hm
          have hmj : m ≠ j := by
            have := Finset.mem_range.mp hm
            omega
          rw [hoff r m hmj, hoff c m hmj]
        rw [Finset.sum_congr rfl hterms]
        exact hrec r c hcj hcr hrn
      · subst hcj
        rw [Finset.sum_range_succ]
        have hterms : ∀ m ∈ Finset.range c,
            a2.data r m * a2.data c m = a.data r m * a.data c m := by
          intro m hm
          have hmj : m ≠ c := by
            have := Finset.mem_range.mp hm
            omega
          rw [hoff r m hmj, hoff c m hmj]
        rw [Finset.sum_congr rfl hterms, hjj, hcol r hcr hrn, div_mul_cancel₀ _ hsnz]
        have hdot : (∑ m ∈ Finset.range c, a.data r m * a.data c m)
            = dotPrefix a r c c := rfl
        rw [hdot, hun r c le_rfl]
        ring
    have hsq' : ∀ d' ∈ cholPivotsAux n steps (j + 1) a2, sqrtQ d' * sqrtQ d' = d' := by
      intro d' hd'
      exact hsq d' (by rw [hpiv]; exact List.mem_cons_of_mem _ hd')
    obtain ⟨c1, c2, c3, c4, c5⟩ := ih (j + 1) a2 L (by omega) hup' hun' hdg' hrec' hsq' h
    refine ⟨?_, ?_, c3, c4, c5⟩
    · rw [c1, ha2, divideColumn_rows, updateStep_rows]
    · rw [c2, ha2, divideColumn_cols, updateStep_cols]

/-! ## The sweep leaves the identity matrix unchanged -/

theorem sqrtQ_one : sqrtQ 1 = 1 := by
  norm_num [sqrtQ, show Int.toNat 1 = 1 from by decide, show sqrtNat 1 = 1 from by decide]

theorem one_not_lt_eps : ¬((|(1 : ℚ)| : ℚ) < eps) := by
  rw [abs_one]
  norm_num [eps]

theorem idMat_data (n i j : Nat) : (idMat n).data i j = if i = j then 1 else 0 := rfl

theorem updateStep_idMat (n j : Nat) (hjn : j ≤ n) :
    (if 0 < j then updateColumn (idMat n) j n else idMat n) = idMat n := by
  ext r c
  · exact updateStep_rows _ _ _
  · exact updateStep_cols _ _ _
  · rw [updateStep_data (idMat n) j n hjn r c]
    by_cases h : c = j ∧ j ≤ r ∧ r < n
    · rw [if_pos h]
      have hdot : dotPrefix (idMat n) r j j = 0 := by
        apply Finset.sum_eq_zero
        intro m hm
        have hmj : ¬(j = m) := by
          have := Finset.mem_range.mp hm
          omega
        simp [idMat_data, hmj]
      rw [hdot, sub_zero, h.1]
    · rw [if_neg h]

theorem divideColumn_one_idMat (n j : Nat) (hjn : j ≤ n) :
    divideColumn (idMat n) j n 1 = idMat n := by
  ext r c
  · exact divideColumn_rows _ _ _ _
  · exact divideColumn_cols _ _ _ _
  · rw [divideColumn_data (idMat n) j n 1 hjn r c]
    by_cases h : c = j ∧ j ≤ r ∧ r < n
    · rw [if_pos h, div_one, h.1]
    · rw [if_neg h]

theorem decomposeAux_idMat (n : Nat) :
    ∀ (steps j : Nat), j + steps = n →
      decomposeAux n steps j (idMat n) = .ok (idMat n) := by
  intro steps
  induction steps with
  | zero => intro j _; rfl
  | succ steps ih =>
    intro j hjn
    have hjle : j ≤ n := by omega
    simp only [decomposeAux, updateStep_idMat n j hjle]
    have hjj : (idMat n).data j j = 1 := by simp [idMat_data]
    rw [hjj]
    rw [if_neg one_not_lt_eps, if_neg (by norm_num), sqrtQ_one,
        divideColumn_one_idMat n j hjle]
    exact ih (j + 1) (by omega)

/-! ## The comparison engine's accumulation in closed form -/

/-- The nested mismatch-collection loop equals the row-major description. -/
theorem elementwiseMatrixComparison_mismatches {α C E : Type}
    (compare : C → α → α → Option E) (x y : Mat α) (comparator : C) :
    ((List.range x.rows).foldl
        (fun acc i =>
          (List.range x.cols).foldl
            (fun acc j =>
              match compare comparator (x.data i j) (y.data i j) with
              | some error => acc ++ [⟨x.data i j, y.data i j, error, i, j⟩]
              | none => acc)
            acc)
        ([] : List (ElementComparisonFailure α E)))
      = rowMajorMismatches compare x y comparator := by
  unfold rowMajorMismatches
  have hinner : ∀ (i : Nat) (J : List Nat) (acc : List (ElementComparisonFailure α E)),
      (J.foldl
        (fun acc j =>
          match compare comparator (x.data i j) (y.data i j) with
          | some error => acc ++ [⟨x.data i j, y.data i j, error, i, j⟩]
          | none => acc)
        acc)
      = acc ++ J.filterMap
          (fun j => (compare comparator (x.data i j) (y.data i j)).map
            (fun error => ⟨x.data i j, y.data i j, error, i, j⟩)) := by
    intro i J
    induction J with
    | nil => intro acc; simp
    | cons j J ih =>
      intro acc
      simp only [List.foldl_cons, List.filterMap_cons]
      cases hc : compare comparator (x.data i j) (y.data i j) with
      | none => simp only [hc]; rw [ih]; simp
      | some e => simp only [hc]; rw [ih]; simp
  have houter : ∀ (I : List Nat) (acc : List (ElementComparisonFailure α E)),
      (I.foldl
        (fun acc i =>
          (List.range x.cols).foldl
            (fun acc j =>
              match compare comparator (x.data i j) (y.data i j) with
              | some error => acc ++ [⟨x.data i j, y.data i j, error, i, j⟩]
              | none => acc)
            acc)
        acc)
      = acc ++ I.flatMap
          (fun i => (List.range x.cols).filterMap
            (fun j => (compare comparator (x.data i j) (y.data i j)).map
              (fun error => ⟨x.data i j, y.data i j, error, i, j⟩))) := by
    intro I
    induction I with
    | nil => intro acc; simp
    | cons i I ih =>
      intro acc
      simp only [List.foldl_cons, List.flatMap_cons]
      rw [hinner i (List.range x.cols) acc, ih, List.append_assoc]
  rw [houter]
  simp

/-! ## Step lemmas for evaluating concrete runs -/

theorem isErr_map {ε α β : Type} (f : α → β) (r : Except ε α) :
    isErr (r.map f) = isErr r := by
  cases r <;> rfl

theorem map_eq_error {ε α β : Type} (f : α → β) (r : Except ε α) (e : ε) :
    r.map f = .error e ↔ r = .error e := by
  cases r <;> simp [Except.map]

theorem decomposeAux_step (n steps j : Nat) (a : Mat ℚ) (d : ℚ)
    (hd : (if 0 < j then updateColumn a j n else a).data j j = d)
    (h1 : ¬(|d| < eps)) (h2 : ¬(d < 0)) :
    decomposeAux n (steps + 1) j a
      = decomposeAux n steps (j + 1)
          (divideColumn (if 0 < j then updateColumn a j n else a) j n (sqrtQ d)) := by
  simp only [decomposeAux, hd, h1, h2, if_false]

theorem decomposeAux_step_singular (n steps j : Nat) (a : Mat ℚ) (d : ℚ)
    (hd : (if 0 < j then updateColumn a j n else a).data j j = d)
    (h1 : |d| < eps) :
    decomposeAux n (steps + 1) j a
      = .error ⟨.DecompFailure, "Matrix is singular to working precision."⟩ := by
  simp only [decomposeAux, hd, h1, if_true]

theorem fsLoop_step (l : Mat ℚ) (n steps i : Nat) (x : List ℚ) (d : ℚ)
    (hd : l.data i i = d) (h1 : ¬(|d| < eps)) :
    fsLoop l n (steps + 1) i x
      = fsLoop l n steps (i + 1)
          (x.set i ((x.getD i 0 - ∑ j ∈ Finset.range i, l.data i j * x.getD j 0) / d)) := by
  simp only [fsLoop, hd, h1, if_false]

theorem tbsLoop_step (l : Mat ℚ) (n i : Nat) (x : List ℚ) (d : ℚ)
    (hd : l.data i i = d) (h1 : ¬(|d| < eps)) :
    tbsLoop l n (i + 1) x
      = tbsLoop l n i
          (x.set i ((x.getD i 0 - ∑ j ∈ Finset.Ico (i + 1) n, l.data j i * x.getD j 0) / d)) := by
  simp only [tbsLoop, hd, h1, if_false]

/-! ## Claim theorems -/

/-- **C10** — `transpose_back_substitution` applied to the `0 × 0` matrix
and the empty right-hand side returns `Ok` with the empty vector: the
substitution loop is vacuous, so the size-zero system succeeds rather than
failing or panicking. -/
theorem transposeBackSubstitution_empty_ok :
    transposeBackSubstitution (Mat.ofList 0 0 [] 0) [] = .ok [] := rfl

/-- **C1 (amended)** — For every square rational input matrix,
`Cholesky::decompose` fails with a structured `DecompFailure` (never a
panic, never a silent success) exactly when a pivot is numerically bad:
the failure message is the singular-to-working-precision one when the
final inspected pivot `d` has `|d| < eps`, and the
not-all-positive-diagonal one when `|d| ≥ eps` but `d < 0`.  Decomposing
`[[0.0]]` or `[[0,0],[0,1]]` reports a decomposition failure through
`Cholesky::decompose`, and `[[0,0],[0,1]]` also fails through
`Matrix::cholesky` — but `Matrix::cholesky` does not fail on `[[0.0]]`
(see the counterexample), so not every entry point reports a failure
there. -/
theorem decompose_fails_iff_bad_pivot :
    (∀ A : Mat ℚ, A.rows = A.cols →
      ((isErr (Cholesky.decompose A) = true) ↔
        ∃ d ∈ cholPivots A, |d| < eps ∨ d < 0)) ∧
    (∀ (A : Mat ℚ) (e : Error), A.rows = A.cols →
      Cholesky.decompose A = .error e →
      e.kind = .DecompFailure ∧
      ∃ d, (cholPivots A).getLast? = some d ∧
        ((|d| < eps ∧ e.msg = "Matrix is singular to working precision.") ∨
         (¬(|d| < eps) ∧ d < 0 ∧
           e.msg = "Diagonal entries of matrix are not all positive."))) ∧
    isErr (Cholesky.decompose (Mat.ofList 1 1 [0] 0)) = true ∧
    isErr (Cholesky.decompose (Mat.ofList 2 2 [0, 0, 0, 1] 0)) = true ∧
    isErr (Mat.cholesky (Mat.lift (Mat.ofList 2 2 [0, 0, 0, 1] 0))) = true := by
  have habs0 : |(0 : ℚ)| < eps := by norm_num [eps]
  have hstep1 : ∀ (n steps : Nat) (a : Mat ℚ), a.data 0 0 = 0 →
      decomposeAux n (steps + 1) 0 a
        = .error ⟨.DecompFailure, "Matrix is singular to working precision."⟩ := by
    intro n steps a h0
    exact decomposeAux_step_singular n steps 0 a 0 (by simpa using h0) habs0
  refine ⟨?_, ?_, ?_, ?_, ?_⟩
  · intro A _
    rw [Cholesky.decompose, isErr_map]
    exact decomposeAux_isErr A.rows A.rows 0 A
  · intro A e _ h
    rw [Cholesky.decompose, map_eq_error] at h
    obtain ⟨d, hd, hk, hm⟩ := decomposeAux_error A.rows A.rows 0 A e h
    exact ⟨hk, d, hd, hm⟩
  · rw [Cholesky.decompose, isErr_map]
    show isErr (decomposeAux 1 (0 + 1) 0 (Mat.ofList 1 1 [0] 0)) = true
    rw [hstep1 1 0 (Mat.ofList 1 1 [0] 0) rfl]
    rfl
  · rw [Cholesky.decompose, isErr_map]
    show isErr (decomposeAux 2 (1 + 1) 0 (Mat.ofList 2 2 [0, 0, 0, 1] 0)) = true
    rw [hstep1 2 1 (Mat.ofList 2 2 [0, 0, 0, 1] 0) rfl]
    rfl
  · -- `Matrix::cholesky` on [[0,0],[0,1]]: row 1, column 0 divides by the
    -- zero diagonal entry pushed for row 0, producing a non-finite value.
    rw [Mat.cholesky, isErr_map]
    have hsqrt0 : sqrtQ (0 : ℚ) = 0 := by
      norm_num [sqrtQ, show Int.toNat 0 = 0 from by decide,
        show sqrtNat 0 = 0 from by decide, show sqrtNat 1 = 1 from by decide]
    have hrow0 : cholCol (Mat.lift (Mat.ofList 2 2 [0, 0, 0, 1] 0)) 2 0 2 0 []
        = .ok [some 0, some 0] := by
      simp only [cholCol, cholSum, Mat.lift, Mat.ofList]
      norm_num [osub, osqrt, hsqrt0]
    have hne : isErr (cholRow (Mat.lift (Mat.ofList 2 2 [0, 0, 0, 1] 0)) 2 2 0 [])
        = true := by
      simp only [cholRow, hrow0]
      have hdiv : odiv (osub ((Mat.lift (Mat.ofList 2 2 [0, 0, 0, 1] 0)).data 1 0)
          (cholSum [some (0 : ℚ), some 0] 2 1 0))
          ([some (0 : ℚ), some 0].getD 0 (some 0)) = none := by
        simp only [cholSum, List.range_zero, List.foldl_nil, Mat.lift, Mat.ofList]
        norm_num [osub, odiv]
      simp only [cholCol, hdiv]
      norm_num [ofinite, isErr]
    exact hne

/-- **C1 counterexample** — `Matrix::cholesky` applied to `[[0.0]]`
succeeds (it returns `Ok` with the factor `[[0.0]]`): its only failure
check is non-finiteness of off-diagonal quotients, and a `1 × 1` matrix
has none, so the claimed decomposition failure through every entry point
does not happen on `[[0.0]]`. -/
theorem cholesky_succeeds_on_zero_1x1 :
    Except.isOk (Mat.cholesky (Mat.lift (Mat.ofList 1 1 [0] 0))) = true := rfl

/-- **C1 witness** — the failure-iff-bad-pivot equivalence instantiated at
the square matrix `[[1.0]]`. -/
theorem decompose_fails_iff_bad_pivot_witness :
    (isErr (Cholesky.decompose (Mat.ofList 1 1 [1] 0)) = true) ↔
      ∃ d ∈ cholPivots (Mat.ofList 1 1 [1] 0), |d| < eps ∨ d < 0 :=
  decompose_fails_iff_bad_pivot.1 (Mat.ofList 1 1 [1] 0) rfl

/-- Chained form of `tbsLoop_step` taking the updated vector as an input
equation, for evaluating concrete runs. -/
theorem tbsLoop_chain (l : Mat ℚ) (n i : Nat) (x x' : List ℚ) (d : ℚ)
    (hd : l.data i i = d) (h1 : ¬(|d| < eps))
    (hx : x.set i ((x.getD i 0 -
        ∑ j ∈ Finset.Ico (i + 1) n, l.data j i * x.getD j 0) / d) = x') :
    tbsLoop l n (i + 1) x = tbsLoop l n i x' := by
  rw [tbsLoop_step l n i x d hd h1, hx]

/-- Chained form of `fsLoop_step`. -/
theorem fsLoop_chain (l : Mat ℚ) (n steps i : Nat) (x x' : List ℚ) (d : ℚ)
    (hd : l.data i i = d) (h1 : ¬(|d| < eps))
    (hx : x.set i ((x.getD i 0 -
        ∑ j ∈ Finset.range i, l.data i j * x.getD j 0) / d) = x') :
    fsLoop l n (steps + 1) i x = fsLoop l n steps (i + 1) x' := by
  rw [fsLoop_step l n steps i x d hd h1, hx]

/-- **C4** — `transpose_back_substitution(L, b)`, for square
lower-triangular `L` with `dim(L) = len(b)`: on success the result `x`
satisfies `x[i] = (b[i] - Σ_{j>i} L[j,i]·x[j]) / L[i,i]` at every index;
the call fails exactly when some `|L[i,i]|` is below machine epsilon, and
then the failure is the `DivByZero` singular-to-working-precision error;
and `L = [[2,0,0],[5,-1,0],[-2,0,1]]`, `b = [-1,2,3]` yields
`x = [7.5, -2.0, 3.0]`. -/
theorem transposeBackSubstitution_spec :
    (∀ (L : Mat ℚ) (b : List ℚ), L.rows = L.cols → L.IsLowerTriangular →
      L.rows = b.length →
      ((isErr (transposeBackSubstitution L b) = true ↔
         ∃ i, i < L.rows ∧ |L.data i i| < eps) ∧
       (∀ e, transposeBackSubstitution L b = .error e →
         e = ⟨.DivByZero, "Matrix L is singular to working precision."⟩) ∧
       (∀ x, transposeBackSubstitution L b = .ok x →
         x.length = b.length ∧
         ∀ i, i < L.rows →
           x.getD i 0 = (b.getD i 0 -
             ∑ j ∈ Finset.Ico (i + 1) L.rows, L.data j i * x.getD j 0)
               / L.data i i))) ∧
    transposeBackSubstitution (Mat.ofList 3 3 [2, 0, 0, 5, -1, 0, -2, 0, 1] 0)
      [-1, 2, 3] = .ok [15 / 2, -2, 3] := by
  constructor
  · intro L b _ _ hlen
    refine ⟨tbsLoop_isErr L L.rows L.rows b, fun e he => tbsLoop_error L L.rows L.rows b e he, ?_⟩
    intro x hx
    exact transposeBackSubstitution_ok L b x hlen hx
  · show tbsLoop (Mat.ofList 3 3 [2, 0, 0, 5, -1, 0, -2, 0, 1] 0) 3 (2 + 1)
      [-1, 2, 3] = .ok [15 / 2, -2, 3]
    rw [tbsLoop_chain _ 3 2 _ ([-1, 2, 3] : List ℚ) 1 rfl (by norm_num [eps]) (by
      norm_num [Finset.Ico_self, Mat.ofList, List.set])]
    rw [tbsLoop_chain _ 3 1 _ ([-1, -2, 3] : List ℚ) (-1) rfl (by norm_num [eps]) (by
      rw [show Finset.Ico 2 3 = {2} from by decide]
      norm_num [Mat.ofList, List.set])]
    rw [tbsLoop_chain _ 3 0 _ ([15 / 2, -2, 3] : List ℚ) 2 rfl (by norm_num [eps]) (by
      rw [show Finset.Ico 1 3 = {1, 2} from by decide]
      norm_num [Mat.ofList, List.set])]
    rfl

/-- **C4 witness** — the general back-substitution specification applied
to the concrete system of the claim. -/
theorem transposeBackSubstitution_spec_witness :
    ∀ x, transposeBackSubstitution (Mat.ofList 3 3 [2, 0, 0, 5, -1, 0, -2, 0, 1] 0)
        [-1, 2, 3] = .ok x →
      x.length = 3 ∧
      ∀ i, i < 3 →
        x.getD i 0 = (List.getD [-1, 2, 3] i 0 -
          ∑ j ∈ Finset.Ico (i + 1) 3,
            (Mat.ofList 3 3 [2, 0, 0, 5, -1, 0, -2, 0, 1] 0).data j i * x.getD j 0)
            / (Mat.ofList 3 3 [2, 0, 0, 5, -1, 0, -2, 0, 1] 0).data i i :=
  (transposeBackSubstitution_spec.1 (Mat.ofList 3 3 [2, 0, 0, 5, -1, 0, -2, 0, 1] 0)
    [-1, 2, 3] rfl (by decide) rfl).2.2

/-! ## The concrete decomposition of `[[4,6],[6,25]]` -/

theorem sqrtQ_four : sqrtQ 4 = 2 := by
  norm_num [sqrtQ, show Int.toNat 4 = 4 from by decide, show sqrtNat 4 = 2 from by decide,
    show sqrtNat 1 = 1 from by decide]

theorem sqrtQ_sixteen : sqrtQ 16 = 4 := by
  norm_num [sqrtQ, show Int.toNat 16 = 16 from by decide, show sqrtNat 16 = 4 from by decide,
    show sqrtNat 1 = 1 from by decide]

theorem decompose_mA_ok :
    ∃ L : Mat ℚ, Cholesky.decompose (Mat.ofList 2 2 [4, 6, 6, 25] 0) = .ok ⟨L⟩ ∧
      L.rows = 2 ∧ L.data 0 0 = 2 ∧ L.data 1 0 = 3 ∧ L.data 1 1 = 4 := by
  set mA : Mat ℚ := Mat.ofList 2 2 [4, 6, 6, 25] 0 with hmA
  set A2 : Mat ℚ := divideColumn mA 0 2 (sqrtQ 4) with hA2
  have hA2d : ∀ r c, A2.data r c = if c = 0 ∧ r < 2 then mA.data r 0 / 2 else mA.data r c := by
    intro r c
    rw [hA2, sqrtQ_four, divideColumn_data mA 0 2 2 (by omega) r c]
    simp
  have hA200 : A2.data 0 0 = 2 := by rw [hA2d]; norm_num [hmA, Mat.ofList]
  have hA210 : A2.data 1 0 = 3 := by rw [hA2d]; norm_num [hmA, Mat.ofList]
  have hA211 : A2.data 1 1 = 25 := by rw [hA2d]; norm_num [hmA, Mat.ofList]
  have hup11 : (updateColumn A2 1 2).data 1 1 = 16 := by
    rw [updateColumn_data A2 1 2 (by omega) 1 1, if_pos ⟨rfl, le_rfl, by omega⟩]
    rw [dotPrefix, Finset.sum_range_one, hA210, hA211]
    norm_num
  set A3 : Mat ℚ := divideColumn (updateColumn A2 1 2) 1 2 (sqrtQ 16) with hA3
  have hA3d : ∀ r c, A3.data r c =
      if c = 1 ∧ 1 ≤ r ∧ r < 2 then (updateColumn A2 1 2).data r 1 / 4
      else (updateColumn A2 1 2).data r c := by
    intro r c
    rw [hA3, sqrtQ_sixteen, divideColumn_data _ 1 2 4 (by omega) r c]
  have hA300 : A3.data 0 0 = 2 := by
    rw [hA3d, if_neg (by omega), updateColumn_data A2 1 2 (by omega) 0 0,
      if_neg (by omega), hA200]
  have hA310 : A3.data 1 0 = 3 := by
    rw [hA3d, if_neg (by omega), updateColumn_data A2 1 2 (by omega) 1 0,
      if_neg (by omega), hA210]
  have hA311 : A3.data 1 1 = 4 := by
    rw [hA3d, if_pos ⟨rfl, le_rfl, by omega⟩, hup11]
    norm_num
  have hrows : A3.rows = 2 := by
    rw [hA3, divideColumn_rows, updateColumn_rows, hA2, divideColumn_rows]
    rfl
  have hrun : decomposeAux 2 2 0 mA = .ok A3 := by
    have h1 : decomposeAux 2 (1 + 1) 0 mA = decomposeAux 2 1 1 A2 := by
      rw [decomposeAux_step 2 1 0 mA 4 (by norm_num [hmA, Mat.ofList])
        (by norm_num [eps]) (by norm_num)]
      rw [hA2]
      simp
    have h2 : decomposeAux 2 (0 + 1) 1 A2 = decomposeAux 2 0 2 A3 := by
      rw [decomposeAux_step 2 0 1 A2 16 (by simpa using hup11)
        (by norm_num [eps]) (by norm_num)]
      rw [hA3]
      simp
    rw [show (2 : Nat) = 1 + 1 from rfl] at h1 ⊢
    rw [h1, h2]
    rfl
  exact ⟨A3, by rw [Cholesky.decompose]; rw [show mA.rows = 2 from rfl, hrun]; rfl,
    hrows, hA300, hA310, hA311⟩

/-- **C3** — `Cholesky::solve(b)` requires `len(b)` to equal the
decomposition's dimension (a fatal contract violation — modelled `none` —
otherwise); when the dimensions agree it returns the result of forward
substitution `L y = b` followed by transpose back-substitution
`Lᵗ x = y`; and for `A = [[4,6],[6,25]]`, `b = [2,4]` the solution is
`x = [0.40625, 0.0625] = [13/32, 1/16]`. -/
theorem cholesky_solve_spec :
    (∀ (c : Cholesky) (b : List ℚ), c.l.rows ≠ b.length → c.solve b = none) ∧
    (∀ (c : Cholesky) (b y x : List ℚ), c.l.rows = b.length →
      forwardSubstitution c.l b = .ok y →
      transposeBackSubstitution c.l y = .ok x →
      c.solve b = some x) ∧
    (∃ c : Cholesky, Cholesky.decompose (Mat.ofList 2 2 [4, 6, 6, 25] 0) = .ok c ∧
      c.solve [2, 4] = some [13 / 32, 1 / 16]) := by
  refine ⟨?_, ?_, ?_⟩
  · intro c b hne
    rw [Cholesky.solve, if_neg hne]
  · intro c b y x hlen hy hx
    simp only [Cholesky.solve, if_pos hlen, hy, hx]
  · obtain ⟨L, hdec, hrows, h00, h10, h11⟩ := decompose_mA_ok
    refine ⟨⟨L⟩, hdec, ?_⟩
    have hfwd : forwardSubstitution L [2, 4] = .ok [1, 1 / 4] := by
      rw [forwardSubstitution, hrows]
      rw [show (2 : Nat) = 1 + 1 from rfl]
      rw [fsLoop_chain L 2 1 0 _ ([1, 4] : List ℚ) 2 h00 (by norm_num [eps])
        (by norm_num [List.set])]
      rw [fsLoop_chain L 2 0 1 _ ([1, 1 / 4] : List ℚ) 4 h11 (by norm_num [eps])
        (by rw [Finset.sum_range_one, h10]; norm_num [List.set])]
      rfl
    have htbs : transposeBackSubstitution L [1, 1 / 4] = .ok [13 / 32, 1 / 16] := by
      rw [transposeBackSubstitution, hrows]
      rw [show (2 : Nat) = 1 + 1 from rfl]
      rw [tbsLoop_chain L 2 1 _ ([1, 1 / 16] : List ℚ) 4 h11 (by norm_num [eps])
        (by norm_num [Finset.Ico_self, List.set])]
      rw [tbsLoop_chain L 2 0 _ ([13 / 32, 1 / 16] : List ℚ) 2 h00 (by norm_num [eps])
        (by rw [show Finset.Ico 1 2 = {1} from by decide, Finset.sum_singleton, h10]
            norm_num [List.set])]
      rfl
    show Cholesky.solve ⟨L⟩ [2, 4] = some [13 / 32, 1 / 16]
    have hlen2 : (Cholesky.mk L).l.rows = ([2, 4] : List ℚ).length := by simpa using hrows
    simp only [Cholesky.solve, if_pos hlen2, hfwd, htbs]

/-- **C3 witness** — the dimension contract violation at a concrete
mismatched input: a `1 × 1` decomposition with an empty right-hand side is
a fatal misuse, modelled as `none`. -/
theorem cholesky_solve_spec_witness :
    Cholesky.solve ⟨Mat.ofList 1 1 [1] 0⟩ [] = none :=
  cholesky_solve_spec.1 ⟨Mat.ofList 1 1 [1] 0⟩ [] (by decide)

theorem map_eq_ok {ε α β : Type} (f : α → β) (r : Except ε α) (b : β) :
    r.map f = .ok b ↔ ∃ a, r = .ok a ∧ f a = b := by
  cases r <;> simp [Except.map]

/-- **C2** — for every symmetric matrix `A` whose accepted pivots have
exact square roots, if `Cholesky::decompose(A)` succeeds then the unpacked
factor `L` satisfies `L · Lᵗ = A` (exactly, in the exact-rational model of
the floating-point scalars — hence within every tolerance). -/
theorem cholesky_reconstruction (A : Mat ℚ) (c : Cholesky)
    (hsquare : A.rows = A.cols) (hsym : A.IsSymmetric)
    (hsq : ∀ d ∈ cholPivots A, sqrtQ d * sqrtQ d = d)
    (h : Cholesky.decompose A = .ok c) :
    ((Cholesky.unpack c).mul (Cholesky.unpack c).transpose).eqOn A := by
  have hl : decomposeAux A.rows A.rows 0 A = .ok c.l := by
    rw [Cholesky.decompose, map_eq_ok] at h
    obtain ⟨l, hl, hc⟩ := h
    cases hc
    exact hl
  obtain ⟨hrows, hcols, hupper, hdiag, hrec⟩ :=
    decomposeAux_invariant A A.rows A.rows 0 A c.l (by omega)
      (fun r c hc _ => absurd hc (Nat.not_lt_zero c))
      (fun r c _ => rfl)
      (fun c hc => absurd hc (Nat.not_lt_zero c))
      (fun r c hc _ _ => absurd hc (Nat.not_lt_zero c))
      hsq hl
  have hAc : A.cols = A.rows := hsquare.symm
  have hLl : ∀ i j, (Cholesky.unpack c).data i j
      = if i < j then 0 else c.l.data i j := fun i j => rfl
  refine ⟨hrows, ?_, ?_⟩
  · show (Cholesky.unpack c).rows = A.cols
    rw [show (Cholesky.unpack c).rows = c.l.rows from rfl, hrows, hAc]
  · intro i hi j hj
    have hi' : i < A.rows := by
      have : i < c.l.rows := hi
      rwa [hrows] at this
    have hj' : j < A.rows := by
      have : j < c.l.rows := hj
      rwa [hrows] at this
    show (∑ m ∈ Finset.range (Cholesky.unpack c).cols,
        (Cholesky.unpack c).data i m * (Cholesky.unpack c).data j m) = A.data i j
    have hcolsn : (Cholesky.unpack c).cols = A.rows := by
      rw [show (Cholesky.unpack c).cols = c.l.cols from rfl, hcols, hAc]
    rw [hcolsn]
    rcases le_or_lt j i with hji | hij
    · have hsub : Finset.range (j + 1) ⊆ Finset.range A.rows :=
        Finset.range_subset.mpr (by omega)
      have hvan : ∀ m ∈ Finset.range A.rows, m ∉ Finset.range (j + 1) →
          (Cholesky.unpack c).data i m * (Cholesky.unpack c).data j m = 0 := by
        intro m _ hm
        have h2m : j < m := by
          have := Finset.mem_range.not.mp hm
          omega
        rw [hLl j m, if_pos h2m, mul_zero]
      rw [← Finset.sum_subset hsub hvan]
      have hterm : ∀ m ∈ Finset.range (j + 1),
          (Cholesky.unpack c).data i m * (Cholesky.unpack c).data j m
            = c.l.data i m * c.l.data j m := by
        intro m hm
        have hm' := Finset.mem_range.mp hm
        rw [hLl, hLl, if_neg (by omega), if_neg (by omega)]
      rw [Finset.sum_congr rfl hterm]
      exact hrec i j hj' hji hi'
    · have hsub : Finset.range (i + 1) ⊆ Finset.range A.rows :=
        Finset.range_subset.mpr (by omega)
      have hvan : ∀ m ∈ Finset.range A.rows, m ∉ Finset.range (i + 1) →
          (Cholesky.unpack c).data i m * (Cholesky.unpack c).data j m = 0 := by
        intro m _ hm
        have h2m : i < m := by
          have := Finset.mem_range.not.mp hm
          omega
        rw [hLl i m, if_pos h2m, zero_mul]
      rw [← Finset.sum_subset hsub hvan]
      have hterm : ∀ m ∈ Finset.range (i + 1),
          (Cholesky.unpack c).data i m * (Cholesky.unpack c).data j m
            = c.l.data j m * c.l.data i m := by
        intro m hm
        have hm' := Finset.mem_range.mp hm
        rw [hLl, hLl, if_neg (by omega), if_neg (by omega), mul_comm]
      rw [Finset.sum_congr rfl hterm, hrec j i hi' (by omega) hj']
      exact hsym j hj' i (by omega)

/-! ## Identity-matrix helpers for the witnesses and C7 -/

theorem decompose_idMat (n : Nat) :
    Cholesky.decompose (idMat n) = .ok ⟨idMat n⟩ := by
  rw [Cholesky.decompose, show (idMat n).rows = n from rfl,
    decomposeAux_idMat n n 0 (by omega)]
  rfl

theorem nullifyUpper_idMat (n : Nat) :
    nullifyUpperTriangularPart (idMat n) = idMat n := by
  ext r c
  · rfl
  · rfl
  · show (if r < c then 0 else (idMat n).data r c) = (idMat n).data r c
    by_cases h : r < c
    · rw [if_pos h, idMat_data, if_neg (by omega)]
    · rw [if_neg h]

theorem cholPivotsAux_idMat (n : Nat) :
    ∀ (steps j : Nat), j + steps = n →
      cholPivotsAux n steps j (idMat n) = List.replicate steps 1 := by
  intro steps
  induction steps with
  | zero => intro j _; rfl
  | succ steps ih =>
    intro j hjn
    have hjle : j ≤ n := by omega
    simp only [cholPivotsAux, updateStep_idMat n j hjle]
    rw [show (idMat n).data j j = 1 from by simp [idMat_data]]
    rw [if_neg one_not_lt_eps, if_neg (by norm_num), sqrtQ_one,
        divideColumn_one_idMat n j hjle, ih (j + 1) (by omega)]
    rfl

theorem cholPivots_idMat_sq (n : Nat) :
    ∀ d ∈ cholPivots (idMat n), sqrtQ d * sqrtQ d = d := by
  intro d hd
  rw [cholPivots, show (idMat n).rows = n from rfl,
    cholPivotsAux_idMat n n 0 (by omega)] at hd
  rw [List.eq_of_mem_replicate hd, sqrtQ_one, one_mul]

theorem idMat_symm (n : Nat) : (idMat n).IsSymmetric := by
  intro i _ j _
  show (if i = j then (1 : ℚ) else 0) = if j = i then 1 else 0
  by_cases h : i = j
  · rw [if_pos h, if_pos h.symm]
  · rw [if_neg h, if_neg (fun hh => h hh.symm)]

/-- **C2 witness** — the reconstruction law at the symmetric
positive-definite matrix `[[1.0]]`. -/
theorem cholesky_reconstruction_witness :
    ((Cholesky.unpack ⟨idMat 1⟩).mul (Cholesky.unpack ⟨idMat 1⟩).transpose).eqOn
      (idMat 1) :=
  cholesky_reconstruction (idMat 1) ⟨idMat 1⟩ rfl (idMat_symm 1)
    (cholPivots_idMat_sq 1) (decompose_idMat 1)

/-- **C6** — if `Cholesky::decompose` succeeded (with exactly-rooted
pivots), every diagonal entry of the stored factor is strictly above
machine epsilon, so the singular-triangular branches of forward and
transpose back-substitution are unreachable: both stages of
`Cholesky::solve` return `Ok` and the two `.expect` calls never panic. -/
theorem solve_succeeds_after_decompose (A : Mat ℚ) (c : Cholesky) (b : List ℚ)
    (hsq : ∀ d ∈ cholPivots A, sqrtQ d * sqrtQ d = d)
    (h : Cholesky.decompose A = .ok c)
    (hblen : c.l.rows = b.length) :
    (∀ i, i < c.l.rows → eps < c.l.data i i) ∧
    (∃ y, forwardSubstitution c.l b = .ok y ∧
      ∃ x, transposeBackSubstitution c.l y = .ok x ∧ c.solve b = some x) := by
  have hl : decomposeAux A.rows A.rows 0 A = .ok c.l := by
    rw [Cholesky.decompose, map_eq_ok] at h
    obtain ⟨l, hl, hc⟩ := h
    cases hc
    exact hl
  obtain ⟨hrows, -, -, hdiag, -⟩ :=
    decomposeAux_invariant A A.rows A.rows 0 A c.l (by omega)
      (fun r c hc _ => absurd hc (Nat.not_lt_zero c))
      (fun r c _ => rfl)
      (fun c hc => absurd hc (Nat.not_lt_zero c))
      (fun r c hc _ _ => absurd hc (Nat.not_lt_zero c))
      hsq hl
  have hdiag' : ∀ i, i < c.l.rows → eps < c.l.data i i := by
    intro i hi
    exact hdiag i (by rwa [hrows] at hi)
  have hgood : ∀ k, k < c.l.rows → ¬(|c.l.data k k| < eps) := by
    intro k hk
    have hlt := hdiag' k hk
    rw [abs_of_pos (lt_trans eps_pos hlt)]
    exact not_lt.mpr (le_of_lt hlt)
  obtain ⟨y, hy⟩ :=
    fsLoop_ok_of_good c.l c.l.rows hgood c.l.rows 0 b (by omega)
  have hy' : forwardSubstitution c.l b = .ok y := hy
  have htbsOk : isErr (transposeBackSubstitution c.l y) = false := by
    by_contra hcon
    have htrue : isErr (transposeBackSubstitution c.l y) = true := by
      cases hh : isErr (transposeBackSubstitution c.l y)
      · exact absurd hh hcon
      · rfl
    obtain ⟨k, hk, hbad⟩ := (tbsLoop_isErr c.l c.l.rows c.l.rows y).mp htrue
    exact hgood k hk hbad
  obtain ⟨x, hx⟩ := exists_ok_of_not_isErr htbsOk
  refine ⟨hdiag', y, hy', x, hx, ?_⟩
  simp only [Cholesky.solve, if_pos hblen, hy', hx]

/-- **C6 witness** — both solve stages succeed after decomposing the
`2 × 2` identity matrix with right-hand side `[1, 1]`. -/
theorem solve_succeeds_after_decompose_witness :
    (∀ i, i < (Cholesky.mk (idMat 2)).l.rows →
      eps < (Cholesky.mk (idMat 2)).l.data i i) ∧
    (∃ y, forwardSubstitution (Cholesky.mk (idMat 2)).l [1, 1] = .ok y ∧
      ∃ x, transposeBackSubstitution (Cholesky.mk (idMat 2)).l y = .ok x ∧
        Cholesky.solve ⟨idMat 2⟩ [1, 1] = some x) :=
  solve_succeeds_after_decompose (idMat 2) ⟨idMat 2⟩ [1, 1]
    (cholPivots_idMat_sq 2) (decompose_idMat 2) rfl

/-- **C7** — for every `N` from 0 to 30, Cholesky-decomposing the `N × N`
identity matrix succeeds, and unpacking the result yields exactly the
identity matrix. -/
theorem decompose_identity_unpack (N : Nat) (hN : N ≤ 30) :
    (Cholesky.decompose (idMat N)).map Cholesky.unpack = .ok (idMat N) := by
  rw [decompose_idMat N]
  show Except.ok (Cholesky.unpack ⟨idMat N⟩) = .ok (idMat N)
  rw [show Cholesky.unpack ⟨idMat N⟩ = nullifyUpperTriangularPart (idMat N) from rfl,
    nullifyUpper_idMat]

/-- **C7 witness** — the identity property at `N = 2`. -/
theorem decompose_identity_unpack_witness :
    (Cholesky.decompose (idMat 2)).map Cholesky.unpack = .ok (idMat 2) :=
  decompose_identity_unpack 2 (by decide)

/-! ## The comparison-engine claims -/

theorem ewmc_characterization {α C E : Type} (compare : C → α → α → Option E)
    (x y : Mat α) (comparator : C)
    (hr : x.rows = y.rows) (hc : x.cols = y.cols) :
    (rowMajorMismatches compare x y comparator = [] →
      elementwiseMatrixComparison compare x y comparator
        = MatrixComparisonResult.Match) ∧
    (rowMajorMismatches compare x y comparator ≠ [] →
      elementwiseMatrixComparison compare x y comparator
        = MatrixComparisonResult.MismatchedElements comparator
            (rowMajorMismatches compare x y comparator)) := by
  have hbase : elementwiseMatrixComparison compare x y comparator
      = (if (rowMajorMismatches compare x y comparator).isEmpty
         then MatrixComparisonResult.Match
         else MatrixComparisonResult.MismatchedElements comparator
           (rowMajorMismatches compare x y comparator)) := by
    simp only [elementwiseMatrixComparison, if_pos (And.intro hr hc)]
    rw [elementwiseMatrixComparison_mismatches]
  constructor
  · intro hnil
    rw [hbase, hnil]
    rfl
  · intro hne
    cases hrm : rowMajorMismatches compare x y comparator with
    | nil => exact absurd hrm hne
    | cons head tail => rw [hbase, hrm]; rfl

/-- **C5** — for every pair of matrices and every comparator: on a row or
column count mismatch the result is `MismatchedDimensions` carrying both
shapes (the pure result value is all that is observable of "no element
comparison is performed"); on matching shapes the result is `Match` when
the row-major mismatch list is empty and otherwise `MismatchedElements`
carrying the comparator and that full ordered list. -/
theorem elementwise_comparison_spec :
    ∀ {α C E : Type} (compare : C → α → α → Option E) (x y : Mat α)
      (comparator : C),
      ((x.rows ≠ y.rows ∨ x.cols ≠ y.cols) →
        elementwiseMatrixComparison compare x y comparator
          = .MismatchedDimensions (x.rows, x.cols) (y.rows, y.cols)) ∧
      (x.rows = y.rows → x.cols = y.cols →
        (rowMajorMismatches compare x y comparator = [] →
          elementwiseMatrixComparison compare x y comparator
            = MatrixComparisonResult.Match) ∧
        (rowMajorMismatches compare x y comparator ≠ [] →
          elementwiseMatrixComparison compare x y comparator
            = MatrixComparisonResult.MismatchedElements comparator
                (rowMajorMismatches compare x y comparator))) := by
  intro α C E compare x y comparator
  constructor
  · intro hne
    have hnot : ¬(x.rows = y.rows ∧ x.cols = y.cols) := by tauto
    simp only [elementwiseMatrixComparison, if_neg hnot]
  · intro hr hc
    exact ewmc_characterization compare x y comparator hr hc

/-- **C5 witness** — a `1 × 1` versus `2 × 2` comparison reports the
dimension mismatch with both shapes. -/
theorem elementwise_comparison_spec_witness :
    elementwiseMatrixComparison exactCompare (Mat.ofList 1 1 [1] 0)
        (Mat.ofList 2 2 [1, 2, 3, 4] 0) .mk
      = .MismatchedDimensions (1, 1) (2, 2) :=
  (elementwise_comparison_spec exactCompare (Mat.ofList 1 1 [1] 0)
    (Mat.ofList 2 2 [1, 2, 3, 4] 0) .mk).1 (Or.inl (by decide))

/-- **C8** — comparing a matrix with itself yields `Match`, both under the
exact comparator and under the absolute comparator with any non-negative
tolerance. -/
theorem compare_self_match :
    (∀ (x : Mat ℚ) (ec : ExactElementwiseComparator),
      elementwiseMatrixComparison exactCompare x x ec = .Match) ∧
    (∀ (x : Mat ℚ) (tol : ℚ), 0 ≤ tol →
      elementwiseMatrixComparison absCompare x x ⟨tol⟩ = .Match) := by
  have hempty : ∀ {C E : Type} (compare : C → ℚ → ℚ → Option E) (x : Mat ℚ)
      (cp : C), (∀ a, compare cp a a = none) →
      rowMajorMismatches compare x x cp = [] := by
    intro C E compare x cp hcmp
    rw [rowMajorMismatches]
    rw [List.flatMap_eq_nil_iff]
    intro i _
    rw [List.filterMap_eq_nil_iff]
    intro j _
    rw [hcmp]
    rfl
  constructor
  · intro x ec
    exact (ewmc_characterization exactCompare x x ec rfl rfl).1
      (hempty exactCompare x ec (fun a => by simp [exactCompare]))
  · intro x tol _
    exact (ewmc_characterization absCompare x x ⟨tol⟩ rfl rfl).1
      (hempty absCompare x ⟨tol⟩ (fun a => by simp [absCompare]))

/-- **C8 witness** — a concrete self-comparison with the absolute
comparator at tolerance `0`. -/
theorem compare_self_match_witness :
    elementwiseMatrixComparison absCompare (Mat.ofList 1 1 [1] 0)
      (Mat.ofList 1 1 [1] 0) ⟨0⟩ = .Match :=
  compare_self_match.2 (Mat.ofList 1 1 [1] 0) 0 le_rfl

/-- **C9** — `PermutationMatrix::as_matrix` returns the `N × N` dense 0/1
matrix in which row `i` holds a single 1 in column `perm[i]` and zeros
elsewhere. -/
theorem asMatrix_spec (p : PermutationMatrix) (i j : Nat)
    (hi : i < p.dim) (hj : j < p.dim) :
    p.asMatrix.rows = p.dim ∧ p.asMatrix.cols = p.dim ∧
    p.asMatrix.data i j = if j = p.index i then 1 else 0 := by
  have hfold : ∀ (I : List Nat) (z : Mat ℚ) (r c : Nat),
      (I.foldl (fun m k => m.set k (p.index k) 1) z).data r c
        = if r ∈ I ∧ c = p.index r then 1 else z.data r c := by
    intro I
    induction I with
    | nil => intro z r c; simp
    | cons k I ih =>
      intro z r c
      simp only [List.foldl_cons]
      rw [ih]
      by_cases hr : r ∈ I ∧ c = p.index r
      · rw [if_pos hr, if_pos ⟨List.mem_cons_of_mem k hr.1, hr.2⟩]
      · rw [if_neg hr, Mat.set_data]
        by_cases hrk : r = k ∧ c = p.index k
        · obtain ⟨h1, h2⟩ := hrk
          subst h1
          rw [if_pos ⟨rfl, h2⟩, if_pos ⟨List.mem_cons_self r I, h2⟩]
        · have hnot : ¬(r ∈ k :: I ∧ c = p.index r) := by
            rintro ⟨hmem, hcr⟩
            rcases List.mem_cons.mp hmem with hrk' | hrI
            · exact hrk ⟨hrk', hrk' ▸ hcr⟩
            · exact hr ⟨hrI, hcr⟩
          rw [if_neg hrk, if_neg hnot]
  have hpres : ∀ (I : List Nat) (z : Mat ℚ),
      (I.foldl (fun m k => m.set k (p.index k) 1) z).rows = z.rows ∧
      (I.foldl (fun m k => m.set k (p.index k) 1) z).cols = z.cols := by
    intro I
    induction I with
    | nil => intro z; exact ⟨rfl, rfl⟩
    | cons k I ih => intro z; simpa using ih _
  refine ⟨(hpres _ _).1, (hpres _ _).2, ?_⟩
  rw [PermutationMatrix.asMatrix, hfold]
  by_cases hji : j = p.index i
  · rw [if_pos ⟨List.mem_range.mpr hi, hji⟩, if_pos hji]
  · rw [if_neg (fun hcon => hji hcon.2), if_neg hji]

/-- **C9 witness** — the dense expansion of the size-2 identity
permutation at cell `(0, 1)`. -/
theorem asMatrix_spec_witness :
    (PermutationMatrix.identity 2).asMatrix.rows = (PermutationMatrix.identity 2).dim ∧
    (PermutationMatrix.identity 2).asMatrix.cols = (PermutationMatrix.identity 2).dim ∧
    (PermutationMatrix.identity 2).asMatrix.data 0 1
      = if 1 = (PermutationMatrix.identity 2).index 0 then 1 else 0 :=
  asMatrix_spec (PermutationMatrix.identity 2) 0 1 (by decide) (by decide)

end Rulinalg
